import Mathlib

/-!
Verification of the true-iso isometric sprite correction pipeline.

This file gives a shallow embedding of the core of the repository
(src/detection.rs, src/geometry.rs, src/transform.rs) and proves or refutes
the stated properties of its specification.

Modelling conventions:
* `u8` channel values are `Fin 256`; `u32` quantities are `ℕ`, with wrapping
  (`% 2^32`) or checked subtraction made explicit exactly where the Rust
  arithmetic can overflow (the `* 3` dimension clamp and the `height - 1` /
  `width - 1` loop bounds of the edge-cleanup pass).
* `f64` arithmetic is modelled by exact arithmetic: `ℚ` inside the resampler
  (all its operations are rational) and `ℝ` in the geometry stage (which uses
  trigonometric functions).  Casts `as u8` / `as u32` are modelled with their
  Rust saturating/truncating semantics.
* A Rust function that can panic is modelled as returning `Option`, with
  `none` for the panic.
* An `RgbaImage` is an `Img`: a width, a height and a total pixel function;
  two images are observationally equal (`Img.EqOn`) when their dimensions
  agree and their pixels agree at every in-range coordinate.
-/

set_option maxHeartbeats 1000000

namespace TrueIso

/-! ## Pixels and images -/

/-- A straight-alpha RGBA pixel, one byte per channel (`image::Rgba<u8>`). -/
structure Pixel where
  r : Fin 256
  g : Fin 256
  b : Fin 256
  a : Fin 256
deriving DecidableEq, Repr

/-- The fully transparent black pixel `Rgba([0, 0, 0, 0])`. -/
def Pixel.clear : Pixel := ⟨0, 0, 0, 0⟩

/-- An RGBA pixel buffer (`image::RgbaImage`): dimensions plus a pixel map.
Only the values of `pix` at coordinates `x < width`, `y < height` are
observable. -/
structure Img where
  width : ℕ
  height : ℕ
  pix : ℕ → ℕ → Pixel

/-- Observational equality of two buffers: same dimensions and the same pixel
at every in-range coordinate. -/
def Img.EqOn (A B : Img) : Prop :=
  A.width = B.width ∧ A.height = B.height ∧
    ∀ x, x < A.width → ∀ y, y < A.height → A.pix x y = B.pix x y

instance (A B : Img) : Decidable (A.EqOn B) := by
  unfold Img.EqOn; infer_instance

/-- `RgbaImage::put_pixel`. -/
def putPixel (img : Img) (x y : ℕ) (p : Pixel) : Img :=
  ⟨img.width, img.height, fun i j => if i = x ∧ j = y then p else img.pix i j⟩

/-! ## Machine-arithmetic helpers -/

/-- `2^32`, the modulus of `u32` arithmetic. -/
def U32MOD : ℕ := 4294967296

/-- Debug-semantics `u32` subtraction: panics (`none`) on underflow. -/
def checkedSub (a b : ℕ) : Option ℕ := if b ≤ a then some (a - b) else none

/-- The Rust cast `f64 as u32` applied to an integral `f64` value: saturates
at `0` below and at `u32::MAX` above. -/
def f64ToU32 (q : ℚ) : ℕ := (min ⌈q⌉ 4294967295).toNat

/-- The Rust cast `f64 as u32` applied after `.round()`. -/
def roundToU32 (q : ℚ) : ℕ := (min (round q) 4294967295).toNat

/-- `i32::clamp` (in the source always called with `lo ≤ hi`). -/
def iclamp (v lo hi : ℤ) : ℤ := max lo (min v hi)

/-- The Rust expression `q.clamp(0.0, 255.0) as u8` on an `f64` value. -/
def qToU8 (q : ℚ) : Fin 256 :=
  ⟨(⌊max 0 (min q 255)⌋).toNat, by
    have h1 : (max 0 (min q 255) : ℚ) ≤ 255 := max_le (by norm_num) (min_le_right _ _)
    have h2 : ⌊max 0 (min q 255)⌋ ≤ ⌊(255 : ℚ)⌋ := Int.floor_le_floor h1
    have h3 : ⌊(255 : ℚ)⌋ = 255 := by norm_num
    omega⟩

/-! ## 3×3 matrices (`nalgebra::Matrix3`), generic in the scalar field -/

/-- A 3×3 matrix with entries listed row by row. -/
structure Mat3 (K : Type) where
  m00 : K
  m01 : K
  m02 : K
  m10 : K
  m11 : K
  m12 : K
  m20 : K
  m21 : K
  m22 : K
deriving DecidableEq

variable {K : Type} [LinearOrderedField K]

/-- Matrix product of two 3×3 matrices. -/
def mat3Mul (A B : Mat3 K) : Mat3 K :=
  ⟨A.m00 * B.m00 + A.m01 * B.m10 + A.m02 * B.m20,
   A.m00 * B.m01 + A.m01 * B.m11 + A.m02 * B.m21,
   A.m00 * B.m02 + A.m01 * B.m12 + A.m02 * B.m22,
   A.m10 * B.m00 + A.m11 * B.m10 + A.m12 * B.m20,
   A.m10 * B.m01 + A.m11 * B.m11 + A.m12 * B.m21,
   A.m10 * B.m02 + A.m11 * B.m12 + A.m12 * B.m22,
   A.m20 * B.m00 + A.m21 * B.m10 + A.m22 * B.m20,
   A.m20 * B.m01 + A.m21 * B.m11 + A.m22 * B.m21,
   A.m20 * B.m02 + A.m21 * B.m12 + A.m22 * B.m22⟩

/-- The 3×3 identity matrix. -/
def idMat3 : Mat3 K := ⟨1, 0, 0, 0, 1, 0, 0, 0, 1⟩

/-- `geometry::transform_point`: apply an augmented matrix to a point,
dividing by the homogeneous coordinate. -/
def transform_point (m : Mat3 K) (x y : K) : K × K :=
  let rx := m.m00 * x + m.m01 * y + m.m02
  let ry := m.m10 * x + m.m11 * y + m.m12
  let rz := m.m20 * x + m.m21 * y + m.m22
  (rx / rz, ry / rz)

/-- Determinant of a 3×3 matrix. -/
def det3 (m : Mat3 K) : K :=
  m.m00 * (m.m11 * m.m22 - m.m12 * m.m21)
    - m.m01 * (m.m10 * m.m22 - m.m12 * m.m20)
    + m.m02 * (m.m10 * m.m21 - m.m11 * m.m20)

/-- `nalgebra`'s `Matrix3::try_inverse`: `None` exactly when the determinant
vanishes, otherwise the cofactor inverse. -/
def tryInverse3 [DecidableEq K] (m : Mat3 K) : Option (Mat3 K) :=
  let d := det3 m
  if d = 0 then none
  else
    some ⟨(m.m11 * m.m22 - m.m12 * m.m21) / d,
          (m.m02 * m.m21 - m.m01 * m.m22) / d,
          (m.m01 * m.m12 - m.m02 * m.m11) / d,
          (m.m12 * m.m20 - m.m10 * m.m22) / d,
          (m.m00 * m.m22 - m.m02 * m.m20) / d,
          (m.m02 * m.m10 - m.m00 * m.m12) / d,
          (m.m10 * m.m21 - m.m11 * m.m20) / d,
          (m.m01 * m.m20 - m.m00 * m.m21) / d,
          (m.m00 * m.m11 - m.m01 * m.m10) / d⟩

/-- `geometry::compute_output_bounds`: transformed corners of the source
rectangle; returns (width, height, min_x, min_y) with the width and height
obtained by `.ceil() as u32`. -/
def compute_output_bounds (m : Mat3 ℚ) (width height : ℕ) : ℕ × ℕ × ℚ × ℚ :=
  let t1 := transform_point m 0 0
  let t2 := transform_point m (width : ℚ) 0
  let t3 := transform_point m 0 (height : ℚ)
  let t4 := transform_point m (width : ℚ) (height : ℚ)
  let min_x := min (min (min t1.1 t2.1) t3.1) t4.1
  let max_x := max (max (max t1.1 t2.1) t3.1) t4.1
  let min_y := min (min (min t1.2 t2.2) t3.2) t4.2
  let max_y := max (max (max t1.2 t2.2) t3.2) t4.2
  (f64ToU32 (max_x - min_x), f64ToU32 (max_y - min_y), min_x, min_y)

/-! ## Detection (src/detection.rs) -/

/-- A detected line: slope angle in degrees and estimated support length
(`detection::DetectedLine`).  Lengths produced by `estimate_line_length` are
nonnegative integer counts, kept here as exact rationals. -/
structure DetectedLine where
  angle_degrees : ℚ
  length : ℚ
deriving DecidableEq, Repr

/-- Total support weight of a class, `lines.iter().map(|l| l.length).sum()`. -/
def totalWeight (lines : List DetectedLine) : ℚ :=
  (lines.map fun l => l.length).sum

/-- The `(angle, length)` pairs of a class sorted by angle ascending
(`sorted.sort_by(partial_cmp on the angle)`, a stable sort). -/
def sortedPairs (lines : List DetectedLine) : List (ℚ × ℚ) :=
  (lines.map fun l => (l.angle_degrees, l.length)).mergeSort
    fun p q => decide (p.1 ≤ q.1)

/-- The accumulation loop of `detection::weighted_median`: add each weight to
the running total and return the first angle at which the running total
reaches `half`. -/
def wmLoop (half : ℚ) : ℚ → List (ℚ × ℚ) → Option ℚ
  | _, [] => none
  | cum, p :: rest =>
    if half ≤ cum + p.2 then some p.1 else wmLoop half (cum + p.2) rest

/-- `detection::weighted_median`: `None` on an empty class or zero total
weight; otherwise the weighted median angle (falling back to the weighted
mean if the loop fails) together with the confidence
`min(total / (count * 100), 1)`. -/
def weighted_median (lines : List DetectedLine) : Option (ℚ × ℚ) :=
  if lines.isEmpty then none
  else
    let total := totalWeight lines
    if total = 0 then none
    else
      let confidence := total / ((lines.length : ℚ) * 100)
      match wmLoop (total / 2) 0 (sortedPairs lines) with
      | some angle => some (angle, min confidence 1)
      | none =>
        let avg := ((lines.map fun l => l.angle_degrees * l.length).sum) / total
        some (avg, min confidence 1)

/-- The left-class call site in `detect_isometric_angles`:
`weighted_median(&left_lines).unwrap_or((-26.565, 0.0))`. -/
def left_angle_estimate (lines : List DetectedLine) : ℚ × ℚ :=
  (weighted_median lines).getD (-26.565, 0)

/-- The right-class call site in `detect_isometric_angles`:
`weighted_median(&right_lines).unwrap_or((26.565, 0.0))`. -/
def right_angle_estimate (lines : List DetectedLine) : ℚ × ℚ :=
  (weighted_median lines).getD (26.565, 0)

/-- The first normalisation loop of `polar_to_angle_degrees`:
`while degrees > 90.0 { degrees -= 180.0 }`. -/
def normalizeDown (d : ℚ) : ℚ :=
  if 90 < d then normalizeDown (d - 180) else d
termination_by (⌈d⌉).toNat
decreasing_by
  have h1 : (90 : ℤ) < ⌈d⌉ := by
    rw [Int.lt_ceil]; exact_mod_cast (by assumption : (90 : ℚ) < d)
  have h2 : ⌈d - 180⌉ = ⌈d⌉ - 180 := by
    have := Int.ceil_sub_int d (180 : ℤ)
    push_cast at this
    exact this
  omega

/-- The second normalisation loop of `polar_to_angle_degrees`:
`while degrees < -90.0 { degrees += 180.0 }`. -/
def normalizeUp (d : ℚ) : ℚ :=
  if d < -90 then normalizeUp (d + 180) else d
termination_by (-⌊d⌋).toNat
decreasing_by
  have h1 : ⌊d⌋ < -90 := by
    rw [Int.floor_lt]; exact_mod_cast (by assumption : d < (-90 : ℚ))
  have h2 : ⌊d + 180⌋ = ⌊d⌋ + 180 := by
    have := Int.floor_add_int d (180 : ℤ)
    push_cast at this
    exact this
  omega

/-- `detection::polar_to_angle_degrees` for a Hough line whose perpendicular
angle is `theta_deg` degrees (a `u32` in `imageproc::hough::PolarLine`).
In exact real arithmetic
`((theta * π/180) - π/2) * (180/π) = theta - 90`, which is then normalised
by the two loops. -/
def polar_to_angle_degrees (theta_deg : ℕ) : ℚ :=
  normalizeUp (normalizeDown ((theta_deg : ℚ) - 90))

/-- Specification-side definition of the weighted median (spec §4.3 / glossary):
pair each angle of the weight-sorted sequence with the cumulative weight up
to and including it. -/
def cumWeights (c : ℚ) : List (ℚ × ℚ) → List (ℚ × ℚ)
  | [] => []
  | p :: rest => (p.1, c + p.2) :: cumWeights (c + p.2) rest

/-- Specification-side definition of the weighted median angle: the first
angle, in the class sorted by angle ascending, at which the cumulative
support length reaches half of the total support length. -/
def specWeightedMedianAngle (lines : List DetectedLine) : Option ℚ :=
  ((cumWeights 0 (sortedPairs lines)).find?
      fun p => decide (totalWeight lines / 2 ≤ p.2)).map Prod.fst

/-! ## Transform (src/transform.rs) -/

/-- A premultiplied floating-point sample `[f64; 4]`: RGB scaled by the
normalised alpha, alpha kept on the 0–255 scale. -/
structure PremulPixel where
  pr : ℚ
  pg : ℚ
  pb : ℚ
  pa : ℚ
deriving DecidableEq, Repr

/-- One entry of `transform::premultiply_alpha`. -/
def premulPixel (p : Pixel) : PremulPixel :=
  let alpha : ℚ := (p.a.val : ℚ) / 255
  ⟨(p.r.val : ℚ) * alpha, (p.g.val : ℚ) * alpha, (p.b.val : ℚ) * alpha, (p.a.val : ℚ)⟩

/-- `transform::premultiply_alpha`, as a coordinate-indexed sample map (the
Rust `Vec` is indexed by `y * width + x`, and all reads stay in range). -/
def premultiply_alpha (img : Img) : ℕ → ℕ → PremulPixel :=
  fun x y => premulPixel (img.pix x y)

/-- `transform::unpremultiply_alpha`: below one alpha count the sample is
forced fully transparent; otherwise RGB are divided by the normalised alpha,
clamped and truncated back to bytes. -/
def unpremultiply_alpha (p : PremulPixel) : Pixel :=
  if p.pa < 1 then Pixel.clear
  else
    let alpha_norm := p.pa / 255
    ⟨qToU8 (p.pr / alpha_norm), qToU8 (p.pg / alpha_norm),
     qToU8 (p.pb / alpha_norm), qToU8 p.pa⟩

/-- `transform::cubic_weight`, the Catmull-Rom kernel, indexed 0..3. -/
def cubic_weight (t : ℚ) (i : ℕ) : ℚ :=
  match i with
  | 0 => -(1/2) * t ^ 3 + t ^ 2 - (1/2) * t
  | 1 => (3/2) * t ^ 3 - (5/2) * t ^ 2 + 1
  | 2 => -(3/2) * t ^ 3 + 2 * t ^ 2 + (1/2) * t
  | 3 => (1/2) * t ^ 3 - (1/2) * t ^ 2
  | _ => 0

/-- `transform::bicubic_interpolate`: separable 4×4 Catmull-Rom interpolation
of the premultiplied samples at a fractional position, with the sample
coordinates clamped to the buffer (`.clamp(0, width as i32 - 1)`). -/
def bicubic_interpolate (pm : ℕ → ℕ → PremulPixel) (width height : ℕ)
    (x y : ℚ) : PremulPixel :=
  let xf := ⌊x⌋
  let yf := ⌊y⌋
  let xr := x - ⌊x⌋
  let yr := y - ⌊y⌋
  let sample : ℕ → ℕ → PremulPixel := fun i j =>
    pm (iclamp (xf + (i : ℤ) - 1) 0 ((width : ℤ) - 1)).toNat
       (iclamp (yf + (j : ℤ) - 1) 0 ((height : ℤ) - 1)).toNat
  ⟨∑ j ∈ Finset.range 4, ∑ i ∈ Finset.range 4,
      (sample i j).pr * (cubic_weight xr i * cubic_weight yr j),
   ∑ j ∈ Finset.range 4, ∑ i ∈ Finset.range 4,
      (sample i j).pg * (cubic_weight xr i * cubic_weight yr j),
   ∑ j ∈ Finset.range 4, ∑ i ∈ Finset.range 4,
      (sample i j).pb * (cubic_weight xr i * cubic_weight yr j),
   ∑ j ∈ Finset.range 4, ∑ i ∈ Finset.range 4,
      (sample i j).pa * (cubic_weight xr i * cubic_weight yr j)⟩

/-- The trigger condition of the edge-cleanup loop body, evaluated on the
pre-cleanup image: alpha strictly between 0 and 32 and at least 3 of the 4
orthogonal neighbours fully transparent. -/
def cleanTrigger (img : Img) (x y : ℕ) : Prop :=
  0 < (img.pix x y).a.val ∧ (img.pix x y).a.val < 32 ∧
    3 ≤ ([img.pix (x - 1) y, img.pix (x + 1) y,
          img.pix x (y - 1), img.pix x (y + 1)].countP
           fun q => decide (q.a.val = 0))

instance (img : Img) (x y : ℕ) : Decidable (cleanTrigger img x y) := by
  unfold cleanTrigger; infer_instance

/-- The nested loops of `transform::clean_edges`, reading from the original
image and writing into the clone (`result`). -/
def clean_edges_core (orig : Img) : Img :=
  (List.range' 1 (orig.height - 2)).foldl
    (fun acc y =>
      (List.range' 1 (orig.width - 2)).foldl
        (fun acc2 x =>
          if cleanTrigger orig x y then putPixel acc2 x y Pixel.clear else acc2)
        acc)
    orig

/-- `transform::clean_edges`.  The loop bounds `height - 1` and `width - 1`
are `u32` subtractions: `height - 1` is evaluated once, and `width - 1` is
evaluated only when the outer loop body runs (`1 < height - 1`); a `u32`
underflow is a panic, modelled as `none`. -/
def clean_edges (img : Img) : Option Img :=
  match checkedSub img.height 1 with
  | none => none
  | some hm1 =>
    if 1 < hm1 then
      match checkedSub img.width 1 with
      | none => none
      | some _ => some (clean_edges_core img)
    else some (clean_edges_core img)

/-- The inverse-mapping pixel loop of `transform::apply_affine_transform`:
map each output pixel (shifted by the bounds offset) through the inverse
matrix and bicubic-interpolate the premultiplied source, leaving pixels whose
preimage falls outside the source extent (with a 1-pixel margin) fully
transparent. -/
def resample (img : Img) (inv : Mat3 ℚ) (nw nh : ℕ) (offx offy : ℚ) : Img :=
  let pm := premultiply_alpha img
  ⟨nw, nh, fun out_x out_y =>
    let dst_x : ℚ := (out_x : ℚ) + offx
    let dst_y : ℚ := (out_y : ℚ) + offy
    let s := transform_point inv dst_x dst_y
    if -1 ≤ s.1 ∧ s.1 ≤ (img.width : ℚ) ∧ -1 ≤ s.2 ∧ s.2 ≤ (img.height : ℚ)
    then unpremultiply_alpha (bicubic_interpolate pm img.width img.height s.1 s.2)
    else Pixel.clear⟩

/-- `transform::apply_affine_transform`: compute the output bounds, clamp the
dimensions (`.max(1).min(src * 3)`, a wrapping `u32` multiply), invert the
forward matrix (returning the source unchanged if singular), run the
inverse-mapping loop, and clean edge artifacts. -/
def apply_affine_transform (img : Img) (forward : Mat3 ℚ) : Option Img :=
  let b := compute_output_bounds forward img.width img.height
  let new_width := min (max b.1 1) (img.width * 3 % U32MOD)
  let new_height := min (max b.2.1 1) (img.height * 3 % U32MOD)
  match tryInverse3 forward with
  | none => some img
  | some inv => clean_edges (resample img inv new_width new_height b.2.2.1 b.2.2.2)

/-- `detection::find_sprite_bounds`: running min/max of the coordinates of
pixels whose alpha reaches the threshold, initialised to
`(width, 0, height, 0)`; `Some (min_x, min_y, w, h)` when a qualifying pixel
exists. -/
def find_sprite_bounds (img : Img) (alpha_threshold : ℕ) :
    Option (ℕ × ℕ × ℕ × ℕ) :=
  let st :=
    (List.range img.height).foldl
      (fun st y =>
        (List.range img.width).foldl
          (fun st x =>
            if alpha_threshold ≤ (img.pix x y).a.val then
              (min st.1 x, max st.2.1 x, min st.2.2.1 y, max st.2.2.2 y)
            else st)
          st)
      (img.width, 0, img.height, 0)
  if st.1 ≤ st.2.1 ∧ st.2.2.1 ≤ st.2.2.2 then
    some (st.1, st.2.2.1, st.2.1 - st.1 + 1, st.2.2.2 - st.2.2.1 + 1)
  else none

/-- `transform::crop_to_content`: copy the bounding sub-rectangle, or return
the image unchanged when it is fully transparent. -/
def crop_to_content (img : Img) : Img :=
  match find_sprite_bounds img 10 with
  | none => img
  | some (mx, my, bw, bh) => ⟨bw, bh, fun x y => img.pix (mx + x) (my + y)⟩

/-- `transform::resize_to_fit`: uniform bicubic rescale so the longest side
equals `target_size` (empty buffers pass through; each new dimension is
`round`ed and floored at 1; pixel-centre sampling convention). -/
def resize_to_fit (img : Img) (target_size : ℕ) : Img :=
  if img.width = 0 ∨ img.height = 0 then img
  else
    let scale : ℚ := (target_size : ℚ) / ((max img.width img.height : ℕ) : ℚ)
    let new_width := max (roundToU32 ((img.width : ℚ) * scale)) 1
    let new_height := max (roundToU32 ((img.height : ℚ) * scale)) 1
    let pm := premultiply_alpha img
    ⟨new_width, new_height, fun out_x out_y =>
      let src_x := ((out_x : ℚ) + 1/2) / scale - 1/2
      let src_y := ((out_y : ℚ) + 1/2) / scale - 1/2
      unpremultiply_alpha (bicubic_interpolate pm img.width img.height src_x src_y)⟩

/-- Specification-side helper used to state the amended identity-transform
and crop/rescale properties: the input with the RGB of every fully
transparent pixel forced to zero. -/
def zeroTransparent (img : Img) : Img :=
  ⟨img.width, img.height, fun x y =>
    if (img.pix x y).a.val = 0 then Pixel.clear else img.pix x y⟩

/-! ## Geometry (src/geometry.rs), over the reals -/

/-- `geometry::IsometricRatio`. -/
structure IsometricRatio where
  horizontal : ℝ
  vertical : ℝ

/-- `IsometricRatio::target_angle`: `(vertical / horizontal).atan()`. -/
noncomputable def IsometricRatio.target_angle (r : IsometricRatio) : ℝ :=
  Real.arctan (r.vertical / r.horizontal)

/-- `IsometricRatio::target_angle_degrees`: `to_degrees` multiplies by
`180 / π`. -/
noncomputable def IsometricRatio.target_angle_degrees (r : IsometricRatio) : ℝ :=
  r.target_angle * (180 / Real.pi)

/-- `geometry::DetectedAngles`. -/
structure DetectedAngles where
  left_angle : ℝ
  right_angle : ℝ
  left_confidence : ℝ
  right_confidence : ℝ

/-- A 2×2 real matrix `[[a, b], [c, d]]` (`nalgebra::Matrix2`). -/
structure Mat2 where
  a : ℝ
  b : ℝ
  c : ℝ
  d : ℝ

/-- `nalgebra`'s `Matrix2::try_inverse`. -/
noncomputable def mat2TryInverse (m : Mat2) : Option Mat2 :=
  let det := m.a * m.d - m.b * m.c
  if det = 0 then none
  else some ⟨m.d / det, -m.b / det, -m.c / det, m.a / det⟩

/-- Product of two 2×2 matrices. -/
def mat2Mul (A B : Mat2) : Mat2 :=
  ⟨A.a * B.a + A.b * B.c, A.a * B.b + A.b * B.d,
   A.c * B.a + A.d * B.c, A.c * B.b + A.d * B.d⟩

/-- `geometry::compute_correction_matrix`: solve `M · B_detected = B_target`
on the 2×2 bases built from the detected and target diagonal directions
(identity fallback if the detected basis is singular), then conjugate by the
translation taking the pivot to the origin. -/
noncomputable def compute_correction_matrix (detected : DetectedAngles)
    (target : IsometricRatio) (center : ℝ × ℝ) : Mat3 ℝ :=
  let target_angle := target.target_angle
  let left_rad := detected.left_angle * (Real.pi / 180)
  let right_rad := detected.right_angle * (Real.pi / 180)
  let b_current : Mat2 :=
    ⟨Real.cos left_rad, Real.cos right_rad, Real.sin left_rad, Real.sin right_rad⟩
  let b_target : Mat2 :=
    ⟨Real.cos (-target_angle), Real.cos target_angle,
     Real.sin (-target_angle), Real.sin target_angle⟩
  let transform_2x2 :=
    match mat2TryInverse b_current with
    | some inv => mat2Mul b_target inv
    | none => ⟨1, 0, 0, 1⟩
  let translate_to_origin : Mat3 ℝ := ⟨1, 0, -center.1, 0, 1, -center.2, 0, 0, 1⟩
  let transform : Mat3 ℝ :=
    ⟨transform_2x2.a, transform_2x2.b, 0,
     transform_2x2.c, transform_2x2.d, 0,
     0, 0, 1⟩
  let translate_back : Mat3 ℝ := ⟨1, 0, center.1, 0, 1, center.2, 0, 0, 1⟩
  mat3Mul (mat3Mul translate_back transform) translate_to_origin

/-! ## Helper lemmas about the weighted median -/

theorem wmLoop_isSome (half : ℚ) :
    ∀ (pairs : List (ℚ × ℚ)) (cum : ℚ), pairs ≠ [] →
      half ≤ cum + (pairs.map Prod.snd).sum → (wmLoop half cum pairs).isSome := by
  intro pairs
  induction pairs with
  | nil => intro cum h _; exact absurd rfl h
  | cons p rest ih =>
    intro cum _ hle
    rw [wmLoop]
    by_cases hc : half ≤ cum + p.2
    · simp [hc]
    · simp only [hc, if_false]
      have hrest : rest ≠ [] := by
        rintro rfl
        simp only [List.map_cons, List.map_nil, List.sum_cons, List.sum_nil] at hle
        exact hc (by linarith)
      apply ih (cum + p.2) hrest
      simp only [List.map_cons, List.sum_cons] at hle
      linarith

theorem wmLoop_eq_find (half : ℚ) :
    ∀ (pairs : List (ℚ × ℚ)) (cum : ℚ),
      wmLoop half cum pairs =
        ((cumWeights cum pairs).find? fun p => decide (half ≤ p.2)).map Prod.fst := by
  intro pairs
  induction pairs with
  | nil => intro cum; rfl
  | cons p rest ih =>
    intro cum
    rw [wmLoop, cumWeights]
    by_cases hc : half ≤ cum + p.2
    · simp [List.find?_cons, hc]
    · simp [List.find?_cons, hc, ih (cum + p.2)]

theorem sortedPairs_perm (lines : List DetectedLine) :
    (sortedPairs lines).Perm (lines.map fun l => (l.angle_degrees, l.length)) :=
  List.mergeSort_perm _ _

theorem sortedPairs_sum (lines : List DetectedLine) :
    ((sortedPairs lines).map Prod.snd).sum = totalWeight lines := by
  have h := ((sortedPairs_perm lines).map Prod.snd).sum_eq
  rw [h, List.map_map]
  rfl

theorem sortedPairs_ne_nil {lines : List DetectedLine} (h : lines ≠ []) :
    sortedPairs lines ≠ [] := by
  intro hnil
  have := (sortedPairs_perm lines).length_eq
  rw [hnil] at this
  simp only [List.length_nil, List.length_map] at this
  exact h (List.length_eq_zero.mp this.symm)

/-! ## Claims C1, C4, C5, C8 -/

/-- C4 (confirmed): on a non-empty class with positive total support length
the estimator returns the weighted median — the first angle, in the class
sorted by angle ascending, at which the cumulative support reaches half the
total — with confidence `min(total / (count·100), 1)`; the single-line case
of the claim is the instance `lines = [l]`, where the median is `l`'s angle
and the confidence is `min(l.length/100, 1)`. -/
theorem claim_C4_weighted_median (lines : List DetectedLine)
    (h1 : lines ≠ []) (h2 : 0 < totalWeight lines) :
    ∃ a, specWeightedMedianAngle lines = some a ∧
      weighted_median lines =
        some (a, min (totalWeight lines / ((lines.length : ℚ) * 100)) 1) := by
  have hne := sortedPairs_ne_nil h1
  have hhalf : totalWeight lines / 2 ≤ 0 + ((sortedPairs lines).map Prod.snd).sum := by
    rw [sortedPairs_sum]
    linarith
  have hsome := wmLoop_isSome (totalWeight lines / 2) (sortedPairs lines) 0 hne hhalf
  obtain ⟨a, ha⟩ := Option.isSome_iff_exists.mp hsome
  refine ⟨a, ?_, ?_⟩
  · rw [specWeightedMedianAngle, ← wmLoop_eq_find, ha]
  · rw [weighted_median]
    simp only [List.isEmpty_iff, h1, if_false, ne_of_gt h2, if_false, ha]

/-- Witness for C4 at the single line with angle 30° and support length 50:
the estimate is exactly (30°, min(50/100, 1)). -/
theorem claim_C4_witness :
    ∃ a, specWeightedMedianAngle [⟨30, 50⟩] = some a ∧
      weighted_median [⟨30, 50⟩] =
        some (a, min (totalWeight [⟨30, 50⟩] /
          ((List.length [(⟨30, 50⟩ : DetectedLine)] : ℚ) * 100)) 1) :=
  claim_C4_weighted_median [⟨30, 50⟩] (by simp) (by norm_num [totalWeight])

/-- C1 (counterexample): the defaults used for an empty class are the fixed
constants ±26.565°, not the target angle of the requested ratio: for the
ratio 1:1 the target angle is 45°, yet the right-class default is 26.565°. -/
theorem claim_C1_counterexample :
    right_angle_estimate [] = (26.565, 0) ∧
    IsometricRatio.target_angle_degrees ⟨1, 1⟩ = 45 ∧
    ((26.565 : ℚ) : ℝ) ≠ 45 := by
  refine ⟨rfl, ?_, by norm_num⟩
  rw [IsometricRatio.target_angle_degrees, IsometricRatio.target_angle]
  norm_num [Real.arctan_one]
  field_simp
  ring

/-- C1 (corrected): for an empty class, or a class of zero total support
length, the call sites in `detect_isometric_angles` substitute the fixed
defaults (−26.565°, confidence 0) for the left class and (26.565°, 0) for
the right class, regardless of the requested ratio. -/
theorem claim_C1_amended (lines : List DetectedLine)
    (h : lines = [] ∨ totalWeight lines = 0) :
    left_angle_estimate lines = (-26.565, 0) ∧
    right_angle_estimate lines = (26.565, 0) := by
  have hm : weighted_median lines = none := by
    rw [weighted_median]
    rcases h with h | h
    · simp [h]
    · by_cases he : lines.isEmpty <;> simp [he, h]
  rw [left_angle_estimate, right_angle_estimate, hm]
  exact ⟨rfl, rfl⟩

/-- Witness for C1 (amended) at the empty class. -/
theorem claim_C1_witness :
    left_angle_estimate [] = (-26.565, 0) ∧
    right_angle_estimate [] = (26.565, 0) :=
  claim_C1_amended [] (Or.inl rfl)

/-! ## Claim C5: angle normalisation range -/

theorem normalizeDown_le (d : ℚ) : normalizeDown d ≤ 90 := by
  induction d using normalizeDown.induct with
  | case1 d hd ih => rw [normalizeDown, if_pos hd]; exact ih
  | case2 d hd => rw [normalizeDown, if_neg hd]; linarith [not_lt.mp hd]

theorem normalizeDown_lb (d : ℚ) (h : -90 ≤ d) : -90 ≤ normalizeDown d := by
  induction d using normalizeDown.induct with
  | case1 d hd ih =>
    rw [normalizeDown, if_pos hd]
    exact ih (by linarith)
  | case2 d hd => rw [normalizeDown, if_neg hd]; exact h

theorem normalizeDown_gt (d : ℚ) (h : -90 < d) : -90 < normalizeDown d := by
  induction d using normalizeDown.induct with
  | case1 d hd ih =>
    rw [normalizeDown, if_pos hd]
    exact ih (by linarith)
  | case2 d hd => rw [normalizeDown, if_neg hd]; exact h

theorem normalizeUp_id (d : ℚ) (h : -90 ≤ d) : normalizeUp d = d := by
  rw [normalizeUp, if_neg (not_lt.mpr h)]

/-- C5 (counterexample): for a raw line with perpendicular angle θ = 0° the
slope conversion returns exactly −90°, which is not strictly greater
than −90°.  (The loop conditions `> 90` / `< −90` normalise into the closed
interval [−90°, 90°], and θ = 0° starts at the −90° endpoint, where neither
loop fires.) -/
theorem claim_C5_counterexample :
    polar_to_angle_degrees 0 = -90 ∧ ¬(-90 < polar_to_angle_degrees 0) := by
  have h : polar_to_angle_degrees 0 = -90 := by
    rw [polar_to_angle_degrees]
    norm_num
    rw [normalizeDown]
    norm_num
    rw [normalizeUp]
    norm_num
  exact ⟨h, by rw [h]; simp⟩

/-- C5 (corrected): the slope conversion returns θ − 90° normalised into the
closed interval [−90°, 90°]: the result is at least −90° and at most 90°,
and for every θ ≥ 1° it is strictly greater than −90°, so the −90° endpoint
is attained only at θ = 0° (where the counterexample shows it is attained). -/
theorem claim_C5_amended (theta_deg : ℕ) :
    (-90 ≤ polar_to_angle_degrees theta_deg ∧ polar_to_angle_degrees theta_deg ≤ 90) ∧
    (1 ≤ theta_deg → -90 < polar_to_angle_degrees theta_deg) := by
  have h0 : (-90 : ℚ) ≤ (theta_deg : ℚ) - 90 := by
    have : (0 : ℚ) ≤ (theta_deg : ℚ) := Nat.cast_nonneg _
    linarith
  have hlb := normalizeDown_lb _ h0
  constructor
  · rw [polar_to_angle_degrees, normalizeUp_id _ hlb]
    exact ⟨hlb, normalizeDown_le _⟩
  · intro h1
    have h0s : (-90 : ℚ) < (theta_deg : ℚ) - 90 := by
      have : (1 : ℚ) ≤ (theta_deg : ℚ) := by exact_mod_cast h1
      linarith
    have hgt := normalizeDown_gt _ h0s
    rw [polar_to_angle_degrees, normalizeUp_id _ (le_of_lt hgt)]
    exact hgt

/-- Witness for C5 (amended) at θ = 45°: the result lies in [−90°, 90°] and,
since 45 ≥ 1, is strictly greater than −90°. -/
theorem claim_C5_witness :
    (-90 ≤ polar_to_angle_degrees 45 ∧ polar_to_angle_degrees 45 ≤ 90) ∧
    -90 < polar_to_angle_degrees 45 :=
  ⟨(claim_C5_amended 45).1, (claim_C5_amended 45).2 (by norm_num)⟩

/-! ## Helper lemmas about the edge-cleanup pass and the resampler -/

theorem innerFold_pix (orig : Img) (y : ℕ) :
    ∀ (L : List ℕ) (acc : Img) (a b : ℕ),
      (L.foldl (fun acc2 x =>
          if cleanTrigger orig x y then putPixel acc2 x y Pixel.clear else acc2)
        acc).pix a b =
        if a ∈ L ∧ b = y ∧ cleanTrigger orig a y then Pixel.clear
        else acc.pix a b := by
  intro L
  induction L with
  | nil => intro acc a b; simp
  | cons x L ih =>
    intro acc a b
    rw [List.foldl_cons, ih]
    by_cases h1 : a ∈ L ∧ b = y ∧ cleanTrigger orig a y
    · rw [if_pos h1, if_pos ⟨List.mem_cons_of_mem _ h1.1, h1.2⟩]
    · rw [if_neg h1]
      by_cases hx : cleanTrigger orig x y
      · rw [if_pos hx]
        show (if a = x ∧ b = y then Pixel.clear else acc.pix a b) = _
        by_cases h2 : a = x ∧ b = y
        · rw [if_pos h2, if_pos ?_]
          exact ⟨by rw [h2.1]; exact List.mem_cons_self _ _, h2.2,
            by rw [h2.1]; exact hx⟩
        · rw [if_neg h2, if_neg ?_]
          rintro ⟨hmem, hby, htrig⟩
          rcases List.mem_cons.mp hmem with rfl | hmem2
          · exact h2 ⟨rfl, hby⟩
          · exact h1 ⟨hmem2, hby, htrig⟩
      · rw [if_neg hx, if_neg ?_]
        rintro ⟨hmem, hby, htrig⟩
        rcases List.mem_cons.mp hmem with rfl | hmem2
        · exact hx htrig
        · exact h1 ⟨hmem2, hby, htrig⟩

theorem innerFold_dims (orig : Img) (y : ℕ) :
    ∀ (L : List ℕ) (acc : Img),
      (L.foldl (fun acc2 x =>
          if cleanTrigger orig x y then putPixel acc2 x y Pixel.clear else acc2)
        acc).width = acc.width ∧
      (L.foldl (fun acc2 x =>
          if cleanTrigger orig x y then putPixel acc2 x y Pixel.clear else acc2)
        acc).height = acc.height := by
  intro L
  induction L with
  | nil => intro acc; exact ⟨rfl, rfl⟩
  | cons x L ih =>
    intro acc
    rw [List.foldl_cons]
    constructor
    · rw [(ih _).1]
      by_cases hx : cleanTrigger orig x y <;> simp [hx, putPixel]
    · rw [(ih _).2]
      by_cases hx : cleanTrigger orig x y <;> simp [hx, putPixel]

theorem outerFold_pix (orig : Img) :
    ∀ (Ly Lx : List ℕ) (acc : Img) (a b : ℕ),
      (Ly.foldl (fun acc y => Lx.foldl (fun acc2 x =>
          if cleanTrigger orig x y then putPixel acc2 x y Pixel.clear else acc2) acc)
        acc).pix a b =
        if a ∈ Lx ∧ b ∈ Ly ∧ cleanTrigger orig a b then Pixel.clear
        else acc.pix a b := by
  intro Ly
  induction Ly with
  | nil => intro Lx acc a b; simp
  | cons y Ly ih =>
    intro Lx acc a b
    rw [List.foldl_cons, ih, innerFold_pix]
    by_cases h1 : a ∈ Lx ∧ b ∈ Ly ∧ cleanTrigger orig a b
    · rw [if_pos h1, if_pos ⟨h1.1, List.mem_cons_of_mem _ h1.2.1, h1.2.2⟩]
    · rw [if_neg h1]
      by_cases h2 : a ∈ Lx ∧ b = y ∧ cleanTrigger orig a y
      · rw [if_pos h2, if_pos ?_]
        exact ⟨h2.1, by rw [h2.2.1]; exact List.mem_cons_self _ _,
          by rw [h2.2.1]; exact h2.2.2⟩
      · rw [if_neg h2, if_neg ?_]
        rintro ⟨hax, hby, htrig⟩
        rcases List.mem_cons.mp hby with rfl | hmem2
        · exact h2 ⟨hax, rfl, htrig⟩
        · exact h1 ⟨hax, hmem2, htrig⟩

theorem outerFold_dims (orig : Img) :
    ∀ (Ly Lx : List ℕ) (acc : Img),
      (Ly.foldl (fun acc y => Lx.foldl (fun acc2 x =>
          if cleanTrigger orig x y then putPixel acc2 x y Pixel.clear else acc2) acc)
        acc).width = acc.width ∧
      (Ly.foldl (fun acc y => Lx.foldl (fun acc2 x =>
          if cleanTrigger orig x y then putPixel acc2 x y Pixel.clear else acc2) acc)
        acc).height = acc.height := by
  intro Ly
  induction Ly with
  | nil => intro Lx acc; exact ⟨rfl, rfl⟩
  | cons y Ly ih =>
    intro Lx acc
    rw [List.foldl_cons]
    exact ⟨((ih _ _).1).trans (innerFold_dims orig y Lx acc).1,
           ((ih _ _).2).trans (innerFold_dims orig y Lx acc).2⟩

theorem clean_edges_core_width (orig : Img) :
    (clean_edges_core orig).width = orig.width :=
  (outerFold_dims orig _ _ orig).1

theorem clean_edges_core_height (orig : Img) :
    (clean_edges_core orig).height = orig.height :=
  (outerFold_dims orig _ _ orig).2

theorem clean_edges_core_pix (orig : Img) (a b : ℕ) :
    (clean_edges_core orig).pix a b =
      if (1 ≤ a ∧ a < 1 + (orig.width - 2)) ∧ (1 ≤ b ∧ b < 1 + (orig.height - 2)) ∧
          cleanTrigger orig a b
      then Pixel.clear else orig.pix a b := by
  rw [clean_edges_core, outerFold_pix]
  simp only [List.mem_range'_1]

theorem clean_edges_pos (img : Img) (hw : 1 ≤ img.width) (hh : 1 ≤ img.height) :
    clean_edges img = some (clean_edges_core img) := by
  rw [clean_edges]
  simp only [checkedSub, if_pos hw, if_pos hh]
  by_cases h3 : 1 < img.height - 1
  · simp only [if_pos h3]
  · simp only [if_neg h3]

/-- Rewriting `apply_affine_transform` when the forward matrix is singular. -/
theorem apply_affine_none (img : Img) (forward : Mat3 ℚ)
    (h : tryInverse3 forward = none) :
    apply_affine_transform img forward = some img := by
  rw [apply_affine_transform, h]

/-- Rewriting `apply_affine_transform` when the forward matrix inverts. -/
theorem apply_affine_some (img : Img) (forward : Mat3 ℚ) (inv : Mat3 ℚ)
    (h : tryInverse3 forward = some inv) :
    apply_affine_transform img forward =
      clean_edges (resample img inv
        (min (max (compute_output_bounds forward img.width img.height).1 1)
          (img.width * 3 % U32MOD))
        (min (max (compute_output_bounds forward img.width img.height).2.1 1)
          (img.height * 3 % U32MOD))
        (compute_output_bounds forward img.width img.height).2.2.1
        (compute_output_bounds forward img.width img.height).2.2.2) := by
  rw [apply_affine_transform, h]

theorem mul3_mod_ne_zero {n : ℕ} (h1 : 1 ≤ n) (h2 : n < U32MOD) :
    n * 3 % U32MOD ≠ 0 := by
  intro h
  have hdvd : U32MOD ∣ n * 3 := Nat.dvd_of_mod_eq_zero h
  have hcop : Nat.Coprime U32MOD 3 := by decide
  have hdn : U32MOD ∣ n := hcop.dvd_of_dvd_mul_right hdvd
  have := Nat.le_of_dvd (by omega) hdn
  omega

/-- For a source of positive dimensions (valid `u32` sizes), the resampler
always returns a buffer, of positive dimensions bounded by 3× the source. -/
theorem apply_pos (img : Img) (forward : Mat3 ℚ)
    (hw : 1 ≤ img.width) (hh : 1 ≤ img.height)
    (hw32 : img.width < U32MOD) (hh32 : img.height < U32MOD) :
    ∃ out, apply_affine_transform img forward = some out ∧
      1 ≤ out.width ∧ out.width ≤ 3 * img.width ∧
      1 ≤ out.height ∧ out.height ≤ 3 * img.height := by
  have hmw := mul3_mod_ne_zero hw hw32
  have hmh := mul3_mod_ne_zero hh hh32
  have hmw3 : img.width * 3 % U32MOD ≤ 3 * img.width :=
    le_trans (Nat.mod_le _ _) (by omega)
  have hmh3 : img.height * 3 % U32MOD ≤ 3 * img.height :=
    le_trans (Nat.mod_le _ _) (by omega)
  cases htry : tryInverse3 forward with
  | none =>
    exact ⟨img, apply_affine_none img forward htry, hw, by omega, hh, by omega⟩
  | some inv =>
    rw [apply_affine_some img forward inv htry]
    set nw := min (max (compute_output_bounds forward img.width img.height).1 1)
      (img.width * 3 % U32MOD) with hnw
    set nh := min (max (compute_output_bounds forward img.width img.height).2.1 1)
      (img.height * 3 % U32MOD) with hnh
    have hnw1 : 1 ≤ nw := le_min (le_max_right _ _) (by omega)
    have hnh1 : 1 ≤ nh := le_min (le_max_right _ _) (by omega)
    have hr : (resample img inv nw nh
        (compute_output_bounds forward img.width img.height).2.2.1
        (compute_output_bounds forward img.width img.height).2.2.2).width = nw := rfl
    refine ⟨clean_edges_core _, clean_edges_pos _ (by rw [hr]; exact hnw1) hnh1, ?_, ?_, ?_, ?_⟩
    · rw [clean_edges_core_width]; exact hnw1
    · rw [clean_edges_core_width]
      exact le_trans (min_le_right _ _) hmw3
    · rw [clean_edges_core_height]; exact hnh1
    · rw [clean_edges_core_height]
      exact le_trans (min_le_right _ _) hmh3

/-! ## Claims C3, C8, C10 -/

/-- C8 (confirmed): when the forward matrix has zero determinant (so
`try_inverse` fails), the resampler returns the source buffer unchanged. -/
theorem claim_C8_singular_fallback (img : Img) (forward : Mat3 ℚ)
    (h : det3 forward = 0) :
    apply_affine_transform img forward = some img := by
  apply apply_affine_none
  rw [tryInverse3]
  simp [h]

/-- The all-zero (hence singular) forward matrix. -/
def zeroMat3 : Mat3 ℚ := ⟨0, 0, 0, 0, 0, 0, 0, 0, 0⟩

/-- A 1×1 test buffer with an arbitrary opaque pixel. -/
def imgC8 : Img := ⟨1, 1, fun _ _ => ⟨1, 2, 3, 255⟩⟩

/-- Witness for C8: the zero matrix is singular and the 1×1 source passes
through unchanged. -/
theorem claim_C8_witness :
    apply_affine_transform imgC8 zeroMat3 = some imgC8 :=
  claim_C8_singular_fallback imgC8 zeroMat3 (by with_unfolding_all decide)

/-- A 0×0 buffer. -/
def img00 : Img := ⟨0, 0, fun _ _ => Pixel.clear⟩

/-- C3 (counterexample): on a 0×0 source with the identity transform the
resampler does not produce a buffer at all: the computed output dimensions
are clamped to `min(max(0,1), 0*3) = 0` and the edge-cleanup loop bound
`height - 1` underflows (a panic).  The claimed "a zero dimension is raised
to 1" does not hold: `.max(1)` is applied before `.min(3*src)`. -/
theorem claim_C3_counterexample :
    apply_affine_transform img00 idMat3 = none := by
  with_unfolding_all rfl

/-- C3 (corrected): for every source buffer of positive dimensions (valid
`u32` sizes) and every forward matrix, the resampler produces a buffer whose
width and height are at least 1 and at most 3× the source width and height
respectively. -/
theorem claim_C3_amended (img : Img) (forward : Mat3 ℚ)
    (hw : 1 ≤ img.width) (hh : 1 ≤ img.height)
    (hw32 : img.width < U32MOD) (hh32 : img.height < U32MOD) :
    ∃ out, apply_affine_transform img forward = some out ∧
      1 ≤ out.width ∧ out.width ≤ 3 * img.width ∧
      1 ≤ out.height ∧ out.height ≤ 3 * img.height :=
  apply_pos img forward hw hh hw32 hh32

/-- A 1×2 test buffer. -/
def imgC3 : Img := ⟨1, 2, fun _ _ => ⟨9, 9, 9, 255⟩⟩

/-- Witness for C3 (amended) on a 1×2 buffer with the identity matrix. -/
theorem claim_C3_witness :
    ∃ out, apply_affine_transform imgC3 idMat3 = some out ∧
      1 ≤ out.width ∧ out.width ≤ 3 * imgC3.width ∧
      1 ≤ out.height ∧ out.height ≤ 3 * imgC3.height :=
  claim_C3_amended imgC3 idMat3 (by decide) (by decide) (by decide) (by decide)

/-- A 0×5 buffer. -/
def img05 : Img := ⟨0, 5, fun _ _ => Pixel.clear⟩

/-- C10 (counterexample): `apply_affine_transform` is not total.  On a 0×5
source with the identity matrix the clamped output is 0×5 and the edge
cleanup evaluates `width - 1` on `width = 0`, a `u32` underflow (debug
panic; in release the wrapped loop bound makes `get_pixel` read out of
bounds, also a panic). -/
theorem claim_C10_counterexample :
    apply_affine_transform img05 idMat3 = none := by
  with_unfolding_all rfl

/-- C10 (corrected): for every source buffer of positive dimensions (valid
`u32` sizes) and every forward matrix, `apply_affine_transform` returns
normally (the loop bounds and dimension clamps are then well defined). -/
theorem claim_C10_amended (img : Img) (forward : Mat3 ℚ)
    (hw : 1 ≤ img.width) (hh : 1 ≤ img.height)
    (hw32 : img.width < U32MOD) (hh32 : img.height < U32MOD) :
    ∃ out, apply_affine_transform img forward = some out := by
  obtain ⟨out, hout, _⟩ := apply_pos img forward hw hh hw32 hh32
  exact ⟨out, hout⟩

/-- A 2×1 test buffer. -/
def imgC10 : Img := ⟨2, 1, fun _ _ => ⟨0, 0, 0, 0⟩⟩

/-- Witness for C10 (amended) on a 2×1 buffer with the zero matrix. -/
theorem claim_C10_witness :
    ∃ out, apply_affine_transform imgC10 zeroMat3 = some out :=
  claim_C10_amended imgC10 zeroMat3 (by decide) (by decide) (by decide) (by decide)

/-! ## Claim C9: frame effect of the edge-cleanup pass -/

theorem clean_edges_some_eq (img out : Img) (h : clean_edges img = some out) :
    out = clean_edges_core img := by
  rw [clean_edges] at h
  cases hcs : checkedSub img.height 1 with
  | none => simp only [hcs] at h; exact absurd h (by simp)
  | some hm1 =>
    simp only [hcs] at h
    by_cases h3 : 1 < hm1
    · rw [if_pos h3] at h
      cases hcs2 : checkedSub img.width 1 with
      | none => simp only [hcs2] at h; exact absurd h (by simp)
      | some wm1 =>
        simp only [hcs2] at h
        exact (Option.some.inj h).symm
    · rw [if_neg h3] at h
      exact (Option.some.inj h).symm

/-- C9 (confirmed): whenever the edge-cleanup pass returns, it preserves the
dimensions, sets to fully transparent exactly those interior pixels whose
alpha lies strictly between 0 and 32 and which have at least 3 of their 4
orthogonal neighbours (read from the pre-cleanup image) at alpha 0, and
leaves every other pixel — border pixels and pixels with alpha 0 or
alpha ≥ 32 included — unchanged. -/
theorem claim_C9_clean_edges_frame (img out : Img)
    (h : clean_edges img = some out) :
    out.width = img.width ∧ out.height = img.height ∧
    ∀ x y, x < img.width → y < img.height →
      ((1 ≤ x ∧ x + 1 < img.width ∧ 1 ≤ y ∧ y + 1 < img.height ∧
          cleanTrigger img x y → out.pix x y = Pixel.clear) ∧
       (¬(1 ≤ x ∧ x + 1 < img.width ∧ 1 ≤ y ∧ y + 1 < img.height ∧
          cleanTrigger img x y) → out.pix x y = img.pix x y)) := by
  rw [clean_edges_some_eq img out h]
  refine ⟨clean_edges_core_width img, clean_edges_core_height img, ?_⟩
  intro x y hx hy
  rw [clean_edges_core_pix]
  constructor
  · rintro ⟨h1, h2, h3, h4, h5⟩
    rw [if_pos ⟨⟨h1, by omega⟩, ⟨h3, by omega⟩, h5⟩]
  · intro hneg
    rw [if_neg ?_]
    rintro ⟨⟨g1, g2⟩, ⟨g3, g4⟩, g5⟩
    exact hneg ⟨g1, by omega, g3, by omega, g5⟩

/-- A 3×3 test buffer: a lone alpha-10 pixel at the centre, everything else
fully transparent. -/
def imgC9 : Img := ⟨3, 3, fun x y => if x = 1 ∧ y = 1 then ⟨5, 5, 5, 10⟩ else Pixel.clear⟩

/-- Witness for C9 on the 3×3 buffer (whose centre pixel triggers the
cleanup). -/
theorem claim_C9_witness :
    (clean_edges_core imgC9).width = imgC9.width ∧
    (clean_edges_core imgC9).height = imgC9.height ∧
    ∀ x y, x < imgC9.width → y < imgC9.height →
      ((1 ≤ x ∧ x + 1 < imgC9.width ∧ 1 ≤ y ∧ y + 1 < imgC9.height ∧
          cleanTrigger imgC9 x y → (clean_edges_core imgC9).pix x y = Pixel.clear) ∧
       (¬(1 ≤ x ∧ x + 1 < imgC9.width ∧ 1 ≤ y ∧ y + 1 < imgC9.height ∧
          cleanTrigger imgC9 x y) → (clean_edges_core imgC9).pix x y = imgC9.pix x y)) :=
  claim_C9_clean_edges_frame imgC9 (clean_edges_core imgC9)
    (clean_edges_pos imgC9 (by decide) (by decide))

/-! ## Interpolation helper lemmas -/

theorem iclamp_toNat_cast (x w : ℕ) (hx : x < w) :
    (iclamp (x : ℤ) 0 ((w : ℤ) - 1)).toNat = x := by
  rw [iclamp, min_eq_left (by omega : (x : ℤ) ≤ (w : ℤ) - 1),
    max_eq_right (by omega : (0 : ℤ) ≤ (x : ℤ))]
  omega

/-- Bicubic interpolation at integer coordinates inside the buffer returns
the sample at those coordinates exactly (the Catmull-Rom weights at fraction
0 are [0, 1, 0, 0]). -/
theorem bicubic_int (pm : ℕ → ℕ → PremulPixel) (w h x y : ℕ)
    (hx : x < w) (hy : y < h) :
    bicubic_interpolate pm w h (x : ℚ) (y : ℚ) = pm x y := by
  have hfx : ⌊(x : ℚ)⌋ = (x : ℤ) := Int.floor_natCast x
  have hfy : ⌊(y : ℚ)⌋ = (y : ℤ) := Int.floor_natCast y
  have hxr : (x : ℚ) - ((x : ℤ) : ℚ) = 0 := by push_cast; ring
  have hyr : (y : ℚ) - ((y : ℤ) : ℚ) = 0 := by push_cast; ring
  rw [bicubic_interpolate]
  simp only [hfx, hfy, hxr, hyr, Finset.sum_range_succ, Finset.sum_range_zero]
  norm_num [cubic_weight]
  rw [iclamp_toNat_cast x w hx, iclamp_toNat_cast y h hy]

theorem qToU8_natCast (n : ℕ) (hn : n < 256) : qToU8 (n : ℚ) = ⟨n, hn⟩ := by
  apply Fin.ext
  show (⌊max 0 (min (n : ℚ) 255)⌋).toNat = n
  have h1 : min ((n : ℚ)) 255 = (n : ℚ) :=
    min_eq_left (by exact_mod_cast Nat.le_of_lt_succ hn)
  rw [h1, max_eq_right (Nat.cast_nonneg n), Int.floor_natCast]
  exact Int.toNat_natCast n

/-- Un-premultiplying a premultiplied pixel recovers it exactly when its
alpha is nonzero, and yields fully transparent black when its alpha is 0. -/
theorem unpremul_premul (p : Pixel) :
    unpremultiply_alpha (premulPixel p) = if p.a.val = 0 then Pixel.clear else p := by
  by_cases ha : p.a.val = 0
  · rw [if_pos ha, unpremultiply_alpha, if_pos ?_]
    show ((p.a.val : ℚ)) < 1
    rw [ha]
    norm_num
  · rw [if_neg ha, unpremultiply_alpha, if_neg ?_]
    · show (⟨qToU8 (((p.r.val : ℚ) * ((p.a.val : ℚ) / 255)) / ((p.a.val : ℚ) / 255)),
        qToU8 (((p.g.val : ℚ) * ((p.a.val : ℚ) / 255)) / ((p.a.val : ℚ) / 255)),
        qToU8 (((p.b.val : ℚ) * ((p.a.val : ℚ) / 255)) / ((p.a.val : ℚ) / 255)),
        qToU8 ((p.a.val : ℚ))⟩ : Pixel) = p
      have hno : ((p.a.val : ℚ)) / 255 ≠ 0 :=
        div_ne_zero (Nat.cast_ne_zero.mpr ha) (by norm_num)
      simp only [mul_div_cancel_right₀ _ hno]
      rw [qToU8_natCast p.r.val p.r.isLt, qToU8_natCast p.g.val p.g.isLt,
        qToU8_natCast p.b.val p.b.isLt, qToU8_natCast p.a.val p.a.isLt]
    · show ¬((p.a.val : ℚ)) < 1
      have : 1 ≤ p.a.val := Nat.one_le_iff_ne_zero.mpr ha
      push_neg
      exact_mod_cast this

/-! ## The identity transform -/

theorem transform_point_id (x y : ℚ) :
    transform_point (idMat3 : Mat3 ℚ) x y = (x, y) := by
  show ((1 * x + 0 * y + 0) / (0 * x + 0 * y + 1),
    (0 * x + 1 * y + 0) / (0 * x + 0 * y + 1)) = (x, y)
  norm_num

theorem f64ToU32_natCast (w : ℕ) (h : w < U32MOD) : f64ToU32 (w : ℚ) = w := by
  rw [f64ToU32, Int.ceil_natCast]
  have hU : U32MOD = 4294967296 := rfl
  rw [min_eq_left (by omega : (w : ℤ) ≤ 4294967295)]
  exact Int.toNat_natCast w

theorem bounds_id (w h : ℕ) (hw32 : w < U32MOD) (hh32 : h < U32MOD) :
    compute_output_bounds idMat3 w h = (w, h, 0, 0) := by
  have hw0 : (0 : ℚ) ≤ (w : ℚ) := Nat.cast_nonneg w
  have hh0 : (0 : ℚ) ≤ (h : ℚ) := Nat.cast_nonneg h
  rw [compute_output_bounds]
  simp only [transform_point_id]
  show (f64ToU32 (max (max (max (0 : ℚ) (w : ℚ)) 0) (w : ℚ) -
      min (min (min (0 : ℚ) (w : ℚ)) 0) (w : ℚ)),
    f64ToU32 (max (max (max (0 : ℚ) (0 : ℚ)) (h : ℚ)) (h : ℚ) -
      min (min (min (0 : ℚ) (0 : ℚ)) (h : ℚ)) (h : ℚ)),
    min (min (min (0 : ℚ) (w : ℚ)) 0) (w : ℚ),
    min (min (min (0 : ℚ) (0 : ℚ)) (h : ℚ)) (h : ℚ)) = ((w : ℕ), (h : ℕ), (0 : ℚ), (0 : ℚ))
  have e1 : min (min (min (0 : ℚ) (w : ℚ)) 0) (w : ℚ) = 0 := by
    rw [min_eq_left hw0, min_self, min_eq_left hw0]
  have e2 : max (max (max (0 : ℚ) (w : ℚ)) 0) (w : ℚ) = (w : ℚ) := by
    rw [max_eq_right hw0, max_eq_left hw0, max_self]
  have e3 : min (min (min (0 : ℚ) (0 : ℚ)) (h : ℚ)) (h : ℚ) = 0 := by
    rw [min_self, min_eq_left hh0, min_eq_left hh0]
  have e4 : max (max (max (0 : ℚ) (0 : ℚ)) (h : ℚ)) (h : ℚ) = (h : ℚ) := by
    rw [max_self, max_eq_right hh0, max_self]
  rw [e1, e2, e3, e4, sub_zero, sub_zero, f64ToU32_natCast w hw32,
    f64ToU32_natCast h hh32]

theorem tryInverse3_id : tryInverse3 (idMat3 : Mat3 ℚ) = some idMat3 := by
  with_unfolding_all decide

/-- The inverse-mapping loop with the identity inverse and zero offset: each
in-range pixel round-trips through premultiply / bicubic / unpremultiply,
which zeroes the RGB of fully transparent pixels and preserves everything
else. -/
theorem resample_id_pix (img : Img) (nw nh : ℕ) (x y : ℕ)
    (hx : x < img.width) (hy : y < img.height) :
    (resample img idMat3 nw nh 0 0).pix x y = (zeroTransparent img).pix x y := by
  show (let s := transform_point (idMat3 : Mat3 ℚ) ((x : ℚ) + 0) ((y : ℚ) + 0)
    if -1 ≤ s.1 ∧ s.1 ≤ (img.width : ℚ) ∧ -1 ≤ s.2 ∧ s.2 ≤ (img.height : ℚ)
    then unpremultiply_alpha
      (bicubic_interpolate (premultiply_alpha img) img.width img.height s.1 s.2)
    else Pixel.clear) = (zeroTransparent img).pix x y
  rw [(by norm_num : (x : ℚ) + 0 = (x : ℚ)), (by norm_num : (y : ℚ) + 0 = (y : ℚ)),
    transform_point_id]
  have hx0 : (0 : ℚ) ≤ (x : ℚ) := Nat.cast_nonneg x
  have hy0 : (0 : ℚ) ≤ (y : ℚ) := Nat.cast_nonneg y
  have hcond : -1 ≤ (x : ℚ) ∧ (x : ℚ) ≤ (img.width : ℚ) ∧ -1 ≤ (y : ℚ) ∧
      (y : ℚ) ≤ (img.height : ℚ) := by
    refine ⟨by linarith, ?_, by linarith, ?_⟩
    · exact_mod_cast Nat.le_of_lt hx
    · exact_mod_cast Nat.le_of_lt hy
  rw [if_pos hcond]
  show unpremultiply_alpha
      (bicubic_interpolate (premultiply_alpha img) img.width img.height (x : ℚ) (y : ℚ)) =
    (zeroTransparent img).pix x y
  rw [bicubic_int _ _ _ _ _ hx hy]
  exact unpremul_premul (img.pix x y)

/-! ## Claim C2: the identity transform -/

/-- A 1×1 buffer whose only pixel is fully transparent but has nonzero RGB. -/
def imgC2 : Img := ⟨1, 1, fun _ _ => ⟨200, 100, 50, 0⟩⟩

/-- A 3×3 buffer with an opaque centre on a transparent background. -/
def imgC2w : Img := ⟨3, 3, fun x y => if x = 1 ∧ y = 1 then ⟨10, 20, 30, 255⟩ else Pixel.clear⟩

theorem find_sprite_bounds_pos {img : Img} {t mx my bw bh : ℕ}
    (h : find_sprite_bounds img t = some (mx, my, bw, bh)) : 1 ≤ bw ∧ 1 ≤ bh := by
  simp only [find_sprite_bounds] at h
  split_ifs at h with hif
  · have he := Option.some.inj h
    simp only [Prod.mk.injEq] at he
    omega

theorem roundToU32_natCast (w : ℕ) (h : w ≤ 4294967295) : roundToU32 (w : ℚ) = w := by
  rw [roundToU32, round_natCast, min_eq_left (by exact_mod_cast h : (w : ℤ) ≤ 4294967295)]
  exact Int.toNat_natCast w

/-- A 2×2 buffer, cropped to its content (opaque pixels touch all four
sides), whose pixel (1,0) is fully transparent with nonzero RGB. -/
def imgC7 : Img :=
  ⟨2, 2, fun x y =>
    if x = 0 ∧ y = 0 then ⟨10, 20, 30, 255⟩
    else if x = 1 ∧ y = 1 then ⟨40, 50, 60, 255⟩
    else if x = 1 ∧ y = 0 then ⟨7, 7, 7, 0⟩
    else ⟨0, 0, 0, 255⟩⟩

/-- The detected ideal angle 26.565° in radians. -/
noncomputable def thetaIdeal : ℝ := 26.565 * (Real.pi / 180)

/-- The exact 2:1 target angle `arctan(1/2)`. -/
noncomputable def alphaHalf : ℝ := Real.arctan (1 / 2)

theorem sin_taylor_ub {x : ℝ} (h0 : 0 ≤ x) (h1 : x ≤ 1) :
    Real.sin x ≤ x - x ^ 3 / 6 + x ^ 4 * (5 / 96) := by
  have hb := Real.sin_bound (x := x) (by rwa [abs_of_nonneg h0])
  rw [abs_of_nonneg h0] at hb
  have h := (abs_le.mp hb).2
  linarith

theorem sin_taylor_lb {x : ℝ} (h0 : 0 ≤ x) (h1 : x ≤ 1) :
    x - x ^ 3 / 6 - x ^ 4 * (5 / 96) ≤ Real.sin x := by
  have hb := Real.sin_bound (x := x) (by rwa [abs_of_nonneg h0])
  rw [abs_of_nonneg h0] at hb
  have h := (abs_le.mp hb).1
  linarith

theorem cos_taylor_ub {x : ℝ} (h0 : 0 ≤ x) (h1 : x ≤ 1) :
    Real.cos x ≤ 1 - x ^ 2 / 2 + x ^ 4 * (5 / 96) := by
  have hb := Real.cos_bound (x := x) (by rwa [abs_of_nonneg h0])
  rw [abs_of_nonneg h0] at hb
  have h := (abs_le.mp hb).2
  linarith

theorem cos_taylor_lb {x : ℝ} (h0 : 0 ≤ x) (h1 : x ≤ 1) :
    1 - x ^ 2 / 2 - x ^ 4 * (5 / 96) ≤ Real.cos x := by
  have hb := Real.cos_bound (x := x) (by rwa [abs_of_nonneg h0])
  rw [abs_of_nonneg h0] at hb
  have h := (abs_le.mp hb).1
  linarith

theorem abs_sin_le_one' (x : ℝ) : |Real.sin x| ≤ 1 :=
  abs_le.mpr ⟨Real.neg_one_le_sin x, Real.sin_le_one x⟩

theorem abs_cos_le_one' (x : ℝ) : |Real.cos x| ≤ 1 :=
  abs_le.mpr ⟨Real.neg_one_le_cos x, Real.cos_le_one x⟩

/-- The cosine is 1-Lipschitz. -/
theorem abs_cos_sub_cos_le (x y : ℝ) : |Real.cos x - Real.cos y| ≤ |x - y| := by
  rw [Real.cos_sub_cos, abs_mul, abs_mul, abs_neg, abs_two]
  have h1 := abs_sin_le_one' ((x + y) / 2)
  have h2 : |Real.sin ((x - y) / 2)| ≤ |(x - y) / 2| := Real.abs_sin_le_abs
  have h3 : |(x - y) / 2| = |x - y| / 2 := by rw [abs_div, abs_two]
  have h4 : (0 : ℝ) ≤ |Real.sin ((x - y) / 2)| := abs_nonneg _
  nlinarith [abs_nonneg (x - y), abs_nonneg (Real.sin ((x + y) / 2))]

/-- The sine is 1-Lipschitz. -/
theorem abs_sin_sub_sin_le (x y : ℝ) : |Real.sin x - Real.sin y| ≤ |x - y| := by
  rw [Real.sin_sub_sin, abs_mul, abs_mul, abs_two]
  have h1 := abs_cos_le_one' ((x + y) / 2)
  have h2 : |Real.sin ((x - y) / 2)| ≤ |(x - y) / 2| := Real.abs_sin_le_abs
  have h3 : |(x - y) / 2| = |x - y| / 2 := by rw [abs_div, abs_two]
  nlinarith [abs_nonneg (x - y), abs_nonneg (Real.sin ((x - y) / 2)),
    abs_nonneg (Real.cos ((x + y) / 2))]

theorem alphaHalf_gt : (0.456 : ℝ) < alphaHalf := by
  have h0 : (0 : ℝ) ≤ 0.456 := by norm_num
  have h1 : (0.456 : ℝ) ≤ 1 := by norm_num
  have hs_ub := sin_taylor_ub h0 h1
  have hc_lb := cos_taylor_lb h0 h1
  have hcpos : (0 : ℝ) < Real.cos 0.456 := by nlinarith
  have htan : Real.tan 0.456 < 1 / 2 := by
    rw [Real.tan_eq_sin_div_cos, div_lt_div_iff₀ hcpos (by norm_num : (0 : ℝ) < 2)]
    nlinarith
  have hpi2 : (0.456 : ℝ) < Real.pi / 2 := by
    have := Real.pi_gt_d6
    linarith
  calc (0.456 : ℝ) = Real.arctan (Real.tan 0.456) :=
        (Real.arctan_tan (by linarith) hpi2).symm
    _ < alphaHalf := Real.arctan_strictMono htan

theorem alphaHalf_lt : alphaHalf < (0.4716 : ℝ) := by
  have h0 : (0 : ℝ) ≤ 0.4716 := by norm_num
  have h1 : (0.4716 : ℝ) ≤ 1 := by norm_num
  have hs_lb := sin_taylor_lb h0 h1
  have hc_ub := cos_taylor_ub h0 h1
  have hcpos : (0 : ℝ) < Real.cos 0.4716 := by
    have := cos_taylor_lb h0 h1
    nlinarith
  have htan : (1 : ℝ) / 2 < Real.tan 0.4716 := by
    rw [Real.tan_eq_sin_div_cos, div_lt_div_iff₀ (by norm_num : (0 : ℝ) < 2) hcpos]
    nlinarith
  have hpi2 : (0.4716 : ℝ) < Real.pi / 2 := by
    have := Real.pi_gt_d6
    linarith
  calc alphaHalf < Real.arctan (Real.tan 0.4716) := Real.arctan_strictMono htan
    _ = 0.4716 := Real.arctan_tan (by linarith) hpi2

theorem thetaIdeal_lb : (0.4636 : ℝ) ≤ thetaIdeal := by
  rw [thetaIdeal]
  have := Real.pi_gt_d6
  nlinarith

theorem thetaIdeal_ub : thetaIdeal ≤ (0.4637 : ℝ) := by
  rw [thetaIdeal]
  have := Real.pi_lt_d6
  nlinarith

theorem alpha_theta_close : |alphaHalf - thetaIdeal| ≤ (0.008 : ℝ) := by
  have h1 := alphaHalf_gt
  have h2 := alphaHalf_lt
  have h3 := thetaIdeal_lb
  have h4 := thetaIdeal_ub
  rw [abs_le]
  constructor <;> linarith

theorem cos_thetaIdeal_lb : (0.88 : ℝ) ≤ Real.cos thetaIdeal := by
  have h3 := thetaIdeal_lb
  have h4 := thetaIdeal_ub
  have := Real.one_sub_sq_div_two_le_cos (x := thetaIdeal)
  nlinarith

theorem sin_thetaIdeal_lb : (0.43 : ℝ) ≤ Real.sin thetaIdeal := by
  have h3 := thetaIdeal_lb
  have h4 := thetaIdeal_ub
  have h5 : thetaIdeal ^ 3 ≤ (0.4637 : ℝ) ^ 3 :=
    pow_le_pow_left₀ (by linarith) h4 3
  have := Real.sin_gt_sub_cube (by linarith : (0 : ℝ) < thetaIdeal)
    (by linarith : thetaIdeal ≤ 1)
  nlinarith [h5]

theorem cos_thetaIdeal_pos : (0 : ℝ) < Real.cos thetaIdeal :=
  lt_of_lt_of_le (by norm_num) cos_thetaIdeal_lb

theorem sin_thetaIdeal_pos : (0 : ℝ) < Real.sin thetaIdeal :=
  lt_of_lt_of_le (by norm_num) sin_thetaIdeal_lb

/-- With detected angles ∓26.565° and target ratio 2:1, the correction
transform fixes the pivot and acts as the diagonal map
`diag(cos α / cos θ, sin α / sin θ)` on the offset from the pivot. -/
theorem correction_point_eval (lc rc cx cy vx vy : ℝ) :
    transform_point
        (compute_correction_matrix ⟨-26.565, 26.565, lc, rc⟩ ⟨2, 1⟩ (cx, cy))
        (cx + vx) (cy + vy) =
      (cx + vx + (Real.cos alphaHalf / Real.cos thetaIdeal - 1) * vx,
       cy + vy + (Real.sin alphaHalf / Real.sin thetaIdeal - 1) * vy) := by
  have hc := cos_thetaIdeal_pos
  have hs := sin_thetaIdeal_pos
  have hth : thetaIdeal = 26.565 * (Real.pi / 180) := rfl
  have harg : (-26.565 : ℝ) * (Real.pi / 180) = -thetaIdeal := by rw [hth]; ring
  have htgt : (⟨2, 1⟩ : IsometricRatio).target_angle = alphaHalf := by
    rw [IsometricRatio.target_angle, alphaHalf]
  have hden : Real.cos thetaIdeal * Real.sin thetaIdeal -
      Real.cos thetaIdeal * -Real.sin thetaIdeal ≠ 0 := by nlinarith
  have hinv : mat2TryInverse ⟨Real.cos thetaIdeal, Real.cos thetaIdeal,
      -Real.sin thetaIdeal, Real.sin thetaIdeal⟩ =
      some ⟨Real.sin thetaIdeal /
          (Real.cos thetaIdeal * Real.sin thetaIdeal -
            Real.cos thetaIdeal * -Real.sin thetaIdeal),
        -Real.cos thetaIdeal /
          (Real.cos thetaIdeal * Real.sin thetaIdeal -
            Real.cos thetaIdeal * -Real.sin thetaIdeal),
        - -Real.sin thetaIdeal /
          (Real.cos thetaIdeal * Real.sin thetaIdeal -
            Real.cos thetaIdeal * -Real.sin thetaIdeal),
        Real.cos thetaIdeal /
          (Real.cos thetaIdeal * Real.sin thetaIdeal -
            Real.cos thetaIdeal * -Real.sin thetaIdeal)⟩ := by
    rw [mat2TryInverse]
    dsimp only
    rw [if_neg hden]
  rw [compute_correction_matrix]
  dsimp only
  rw [htgt, harg, ← hth]
  simp only [Real.cos_neg, Real.sin_neg]
  rw [hinv]
  dsimp only [mat2Mul, mat3Mul, transform_point]
  rw [Prod.mk.injEq]
  constructor
  · field_simp
    ring
  · field_simp
    ring

/-- C6 (confirmed): with detected angles −26.565° / 26.565° (any reported
confidences), target ratio 2:1 and any pivot, the correction transform moves
the pivot and every point within 2 pixels of it (per coordinate) by at most
0.1 pixel in each coordinate. -/
theorem claim_C6_near_identity (lc rc cx cy vx vy : ℝ)
    (hvx : |vx| ≤ 2) (hvy : |vy| ≤ 2) :
    |(transform_point
        (compute_correction_matrix ⟨-26.565, 26.565, lc, rc⟩ ⟨2, 1⟩ (cx, cy))
        (cx + vx) (cy + vy)).1 - (cx + vx)| ≤ 1 / 10 ∧
    |(transform_point
        (compute_correction_matrix ⟨-26.565, 26.565, lc, rc⟩ ⟨2, 1⟩ (cx, cy))
        (cx + vx) (cy + vy)).2 - (cy + vy)| ≤ 1 / 10 := by
  have hc := cos_thetaIdeal_pos
  have hs := sin_thetaIdeal_pos
  have hclose := alpha_theta_close
  have hratioc : |Real.cos alphaHalf / Real.cos thetaIdeal - 1| ≤ 1 / 20 := by
    have heq : Real.cos alphaHalf / Real.cos thetaIdeal - 1 =
        (Real.cos alphaHalf - Real.cos thetaIdeal) / Real.cos thetaIdeal := by
      field_simp
    rw [heq, abs_div, abs_of_pos hc]
    have hnum : |Real.cos alphaHalf - Real.cos thetaIdeal| ≤ 0.008 :=
      le_trans (abs_cos_sub_cos_le _ _) hclose
    have hclb := cos_thetaIdeal_lb
    calc |Real.cos alphaHalf - Real.cos thetaIdeal| / Real.cos thetaIdeal ≤
        (0.008 : ℝ) / 0.88 := by
          apply div_le_div₀ (by norm_num) hnum (by norm_num) hclb
      _ ≤ 1 / 20 := by norm_num
  have hratios : |Real.sin alphaHalf / Real.sin thetaIdeal - 1| ≤ 1 / 20 := by
    have heq : Real.sin alphaHalf / Real.sin thetaIdeal - 1 =
        (Real.sin alphaHalf - Real.sin thetaIdeal) / Real.sin thetaIdeal := by
      field_simp
    rw [heq, abs_div, abs_of_pos hs]
    have hnum : |Real.sin alphaHalf - Real.sin thetaIdeal| ≤ 0.008 :=
      le_trans (abs_sin_sub_sin_le _ _) hclose
    have hslb := sin_thetaIdeal_lb
    calc |Real.sin alphaHalf - Real.sin thetaIdeal| / Real.sin thetaIdeal ≤
        (0.008 : ℝ) / 0.43 := by
          apply div_le_div₀ (by norm_num) hnum (by norm_num) hslb
      _ ≤ 1 / 20 := by norm_num
  rw [correction_point_eval]
  constructor
  · have he : cx + vx + (Real.cos alphaHalf / Real.cos thetaIdeal - 1) * vx - (cx + vx) =
        (Real.cos alphaHalf / Real.cos thetaIdeal - 1) * vx := by ring
    rw [he, abs_mul]
    calc |Real.cos alphaHalf / Real.cos thetaIdeal - 1| * |vx| ≤ (1 / 20) * 2 := by
          apply mul_le_mul hratioc hvx (abs_nonneg _) (by norm_num)
      _ ≤ 1 / 10 := by norm_num
  · have he : cy + vy + (Real.sin alphaHalf / Real.sin thetaIdeal - 1) * vy - (cy + vy) =
        (Real.sin alphaHalf / Real.sin thetaIdeal - 1) * vy := by ring
    rw [he, abs_mul]
    calc |Real.sin alphaHalf / Real.sin thetaIdeal - 1| * |vy| ≤ (1 / 20) * 2 := by
          apply mul_le_mul hratios hvy (abs_nonneg _) (by norm_num)
      _ ≤ 1 / 10 := by norm_num

/-- Witness for C6 at pivot (50, 50), offset (1, 1). -/
theorem claim_C6_witness :
    |(transform_point
        (compute_correction_matrix ⟨-26.565, 26.565, 1, 1⟩ ⟨2, 1⟩ (50, 50))
        (50 + 1) (50 + 1)).1 - (50 + 1)| ≤ 1 / 10 ∧
    |(transform_point
        (compute_correction_matrix ⟨-26.565, 26.565, 1, 1⟩ ⟨2, 1⟩ (50, 50))
        (50 + 1) (50 + 1)).2 - (50 + 1)| ≤ 1 / 10 :=
  claim_C6_near_identity 1 1 50 50 1 1 (by norm_num) (by norm_num)

end TrueIso
